import Mathlib

/-!
Verification of the image-upload portal's service layer against its
specification.

The development shallowly embeds the repository's TypeScript service
functions:

* `getOptimizedImageUrl` and `extractPublicIdFromUrl` (Cloudinary URL
  builder and its inverse pattern extractor);
* the multipart file-part construction and error paths of
  `uploadImageToCloudinary`, and the error path of `uploadImageToFirebase`;
* the image-registry mutations `addImage` / `removeImage` (context-hook
  variant) and the upload screen's prepend/remove handlers.

JavaScript-specific behaviour is embedded explicitly: `if (x)` truthiness
on numbers becomes a `≠ 0` test on present values, `Array.join` becomes
`jsJoin`, `String.split('.')` becomes `splitOnChar '.'`, and the regular
expression of `extractPublicIdFromUrl` becomes a leftmost-match,
greedy-with-backtracking matcher written out by hand.
-/

/-! ## URL builder (`getOptimizedImageUrl`) -/

def CLOUDINARY_CLOUD_NAME : String := "your-cloud-name"

/-- `quality` option: `'auto' | number`. -/
inductive Quality where
  | auto : Quality
  | num : Nat → Quality
deriving DecidableEq, Repr

/-- `format` option: `'auto' | 'webp' | 'jpg' | 'png'`. -/
inductive Format where
  | auto : Format
  | webp : Format
  | jpg : Format
  | png : Format
deriving DecidableEq, Repr

/-- `crop` option: `'fill' | 'fit' | 'scale' | 'crop'`. -/
inductive Crop where
  | fill : Crop
  | fit : Crop
  | scale : Crop
  | crop : Crop
deriving DecidableEq, Repr

/-- The options bag of `getOptimizedImageUrl`; absent fields are `none`,
matching an omitted property in the TypeScript object literal. -/
structure ImageOptions where
  width : Option Nat := none
  height : Option Nat := none
  quality : Option Quality := none
  format : Option Format := none
  crop : Option Crop := none
deriving DecidableEq, Repr

/-- JavaScript truthiness of an optional number: `undefined` and `0` are
falsy, every other (natural) number is truthy. -/
def truthyNat : Option Nat → Bool
  | none => false
  | some n => n ≠ 0

/-- JavaScript truthiness of the resolved `quality` value: the string
`'auto'` is truthy, a number is truthy iff it is nonzero. -/
def truthyQuality : Quality → Bool
  | .auto => true
  | .num n => n ≠ 0

def qualityStr : Quality → String
  | .auto => "auto"
  | .num n => Nat.repr n

def formatStr : Format → String
  | .auto => "auto"
  | .webp => "webp"
  | .jpg => "jpg"
  | .png => "png"

def cropStr : Crop → String
  | .fill => "fill"
  | .fit => "fit"
  | .scale => "scale"
  | .crop => "crop"

/-- JavaScript `Array.prototype.join(sep)`. -/
def jsJoin (sep : String) : List String → String
  | [] => ""
  | [x] => x
  | x :: y :: xs => x ++ sep ++ jsJoin sep (y :: xs)

/-- The `transformations` array assembled inside `getOptimizedImageUrl`:
a dimensions entry (itself a comma-join of `w_`/`h_` directives) when
either dimension is truthy, then `c_` when crop is truthy and a dimension
is truthy, then `q_` when quality is truthy, then `f_` when format is
truthy.  Defaults: `quality = 'auto'`, `format = 'auto'`, `crop = 'fill'`. -/
def transformList (o : ImageOptions) : List String :=
  let width := o.width
  let height := o.height
  let quality := o.quality.getD .auto
  let format := o.format.getD .auto
  let cropMode := o.crop.getD .fill
  (if truthyNat width || truthyNat height then
    [jsJoin "," ((if truthyNat width then ["w_" ++ Nat.repr (width.getD 0)] else []) ++
                 (if truthyNat height then ["h_" ++ Nat.repr (height.getD 0)] else []))]
   else []) ++
  (if cropStr cropMode ≠ "" && (truthyNat width || truthyNat height) then
    ["c_" ++ cropStr cropMode] else []) ++
  (if truthyQuality quality then ["q_" ++ qualityStr quality] else []) ++
  (if formatStr format ≠ "" then ["f_" ++ formatStr format] else [])

/-- `transformations.length > 0 ? transformations.join(',') + '/' : ''` -/
def transformationString (o : ImageOptions) : String :=
  if (transformList o).length > 0 then jsJoin "," (transformList o) ++ "/" else ""

/-- `https://res.cloudinary.com/${CLOUDINARY_CLOUD_NAME}/image/upload/${transformationString}${publicId}` -/
def getOptimizedImageUrl (publicId : String) (options : ImageOptions) : String :=
  "https://res.cloudinary.com/" ++
    (CLOUDINARY_CLOUD_NAME ++ ("/image/upload/" ++ (transformationString options ++ publicId)))

/-! ## Sanity checks on concrete inputs -/

example : getOptimizedImageUrl ("abc123")
    { width := some 400, height := some 300, quality := some .auto, format := some .webp } =
    "https://res.cloudinary.com/your-cloud-name/image/upload/w_400,h_300,c_fill,q_auto,f_webp/abc123" := by
  decide

example : getOptimizedImageUrl ("pic") {} =
    "https://res.cloudinary.com/your-cloud-name/image/upload/q_auto,f_auto/pic" := by
  decide

/-! ## Inverse extractor (`extractPublicIdFromUrl`)

The source applies `url.match(/\/upload\/(?:v\d+\/)?(.+)\.[^.]+$/)` and
returns the first capture, or `''` when there is no match.  The embedding
spells out the JavaScript regex semantics for this particular pattern:
the engine looks for the leftmost starting position at which the whole
pattern matches; `.` does not match line terminators; `(.+)` is greedy, so
with the trailing `\.[^.]+$` the capture extends to the character before
the last dot of the input; the optional version group backtracks to the
empty alternative when taking it prevents the rest from matching. -/

/-- JavaScript line terminators, which `.` does not match. -/
def isLineTerm (c : Char) : Bool :=
  c = '\n' || c = '\r' || c = Char.ofNat 0x2028 || c = Char.ofNat 0x2029

/-- Split a character list at its last `'.'`: returns `(a, b)` with
`l = a ++ '.' :: b` and no `'.'` in `b`, or `none` when there is no dot. -/
def splitLastDot : List Char → Option (List Char × List Char)
  | [] => none
  | c :: cs =>
    match splitLastDot cs with
    | some (a, b) => some (c :: a, b)
    | none => if c = '.' then some ([], cs) else none

/-- Matching `(.+)\.[^.]+$` against `r`: succeeds with the greedy capture
exactly when `r` splits at its last dot into a nonempty, line-terminator
free part and a nonempty extension. -/
def coreMatch (r : List Char) : Option (List Char) :=
  match splitLastDot r with
  | some (a, b) =>
    if !a.isEmpty && !b.isEmpty && a.all (fun c => !isLineTerm c) then some a else none
  | none => none

/-- Matching `(?:v\d+\/)?(.+)\.[^.]+$` against `r`: first try to consume a
version segment `v<digits>/`, falling back to the empty alternative when
the rest of the pattern cannot complete. -/
def matchAfterUpload (r : List Char) : Option (List Char) :=
  match r with
  | [] => none
  | c :: cs =>
    if c = 'v' then
      match cs.takeWhile Char.isDigit, cs.dropWhile Char.isDigit with
      | _ :: _, '/' :: r2 =>
        match coreMatch r2 with
        | some a => some a
        | none => coreMatch (c :: cs)
      | _, _ => coreMatch (c :: cs)
    else coreMatch (c :: cs)

def uploadLit : List Char := ['/', 'u', 'p', 'l', 'o', 'a', 'd', '/']

/-- Leftmost-match search: try the full pattern at every starting
position, left to right. -/
def scan : List Char → Option (List Char)
  | [] => none
  | c :: cs =>
    if (c :: cs).take 8 = uploadLit then
      match matchAfterUpload ((c :: cs).drop 8) with
      | some a => some a
      | none => scan cs
    else scan cs

/-- `const matches = url.match(/\/upload\/(?:v\d+\/)?(.+)\.[^.]+$/);
return matches ? matches[1] : '';` -/
def extractPublicIdFromUrl (url : String) : String :=
  match scan url.data with
  | some a => a.asString
  | none => ""

example : extractPublicIdFromUrl
    ("https://res.cloudinary.com/your-cloud-name/image/upload/q_auto,f_auto/abc.jpg") =
    "q_auto,f_auto/abc" := by decide

example : extractPublicIdFromUrl ("https://x/upload/v123/photo.png") = "photo" := by decide

example : extractPublicIdFromUrl ("no match here") = "" := by decide

example : extractPublicIdFromUrl ("/upload/v12/x") = "" := by decide

example : extractPublicIdFromUrl ("/upload/v1/.jpg") = "v1/" := by decide

example : extractPublicIdFromUrl ("/upload/a.b.c") = "a.b" := by decide

/-! ## Upload client (`uploadImageToCloudinary`, `uploadImageToFirebase`)

The multipart `file` field construction and the error paths are embedded;
the network itself is a parameter (the outcome of `fetch` / of the
Firebase SDK call), so each theorem quantifies over every possible
backend response. -/

/-- JavaScript `String.prototype.split(sep)` for a single-character
separator: always returns at least one (possibly empty) group. -/
def splitOnChar (sep : Char) : List Char → List (List Char)
  | [] => [[]]
  | c :: cs =>
    match splitOnChar sep cs with
    | [] => [[]]
    | g :: gs => if c = sep then [] :: g :: gs else (c :: g) :: gs

/-- `const fileExtension = fileName.split('.').pop() || 'jpg';` -/
def fileExtension (fileName : String) : String :=
  let e := (splitOnChar '.' fileName.data).getLastD []
  if e.isEmpty then "jpg" else e.asString

/-- The multipart `file` field: either a blob decoded from a `data:` URL,
or a `{uri, type, name}` reference for every other URI. -/
inductive FormFilePart where
  | blobPart (sourceUri : String) (name : String)
  | uriPart (uri : String) (mimeType : String) (name : String)
deriving DecidableEq, Repr

/-- The branch of `uploadImageToCloudinary` that appends the `file` field:
`imageUri.startsWith('data:')` selects the blob path; otherwise the URI is
attached directly with `image/${fileExtension === 'jpg' ? 'jpeg' :
fileExtension}` as its MIME type. -/
def buildFilePart (imageUri fileName : String) : FormFilePart :=
  if ("data:").data.isPrefixOf imageUri.data then
    .blobPart imageUri fileName
  else
    .uriPart imageUri
      ("image/" ++ (if fileExtension fileName = "jpg" then "jpeg" else fileExtension fileName))
      fileName

structure HttpResponse where
  status : Nat
  statusText : String
  bodyText : String
deriving DecidableEq, Repr

/-- `Response.ok`: status in the inclusive range 200–299. -/
def respOk (r : HttpResponse) : Bool := 200 ≤ r.status && r.status < 300

/-- The `try` block of `uploadImageToCloudinary` after the POST: a network
failure rethrows, a non-ok response throws
``Upload failed: ${response.status} ${response.statusText}``, an ok
response yields the JSON-parse outcome (whose `secure_url` is returned). -/
def cloudinaryTryBlock (fetchResult : Except String HttpResponse)
    (jsonResult : Except String String) : Except String String :=
  match fetchResult with
  | .error e => .error e
  | .ok r =>
    if respOk r then jsonResult
    else .error ("Upload failed: " ++ Nat.repr r.status ++ " " ++ r.statusText)

/-- `uploadImageToCloudinary`: the surrounding `catch` wraps any thrown
error as ``Failed to upload image to Cloudinary: ${error.message}``. -/
def uploadImageToCloudinary (fetchResult : Except String HttpResponse)
    (jsonResult : Except String String) : Except String String :=
  match cloudinaryTryBlock fetchResult jsonResult with
  | .ok u => .ok u
  | .error m => .error ("Failed to upload image to Cloudinary: " ++ m)

/-- A failure surfaced by the Firebase SDK; it carries the backend's HTTP
status and a message, none of which survive the catch block. -/
structure FirebaseFailure where
  status : Nat
  message : String
deriving DecidableEq, Repr

/-- `uploadImageToFirebase`: any failure of the storage calls is caught
and rethrown as the constant message `Failed to upload image to
Firebase`. -/
def uploadImageToFirebase (uploadResult : Except FirebaseFailure String) :
    Except String String :=
  match uploadResult with
  | .ok url => .ok url
  | .error _ => .error "Failed to upload image to Firebase"

/-! ## Image registry

Two registries exist in the source with the same record shape (the
upload screen's `UploadedImage` names its third field `name` instead of
`fileName`); one record type serves both embeddings. -/

structure ImageRecord where
  id : String
  url : String
  fileName : String
  uploadedAt : Nat
deriving DecidableEq, Repr

namespace ImageContextHook

/-- `addImage` of the context-hook registry:
`const updatedImages = [...images, newImage]` — the new record, whose id
is `Date.now().toString()`, is appended at the end. -/
def addImage (images : List ImageRecord) (url fileName : String) (now : Nat) :
    List ImageRecord :=
  images ++ [{ id := Nat.repr now, url := url, fileName := fileName, uploadedAt := now }]

/-- `removeImage`: `images.filter(img => img.id !== id)`. -/
def removeImage (images : List ImageRecord) (id : String) : List ImageRecord :=
  images.filter (fun img => img.id != id)

end ImageContextHook

namespace UploadScreen

/-- `handleImageUpload` of the upload screen:
`setUploadedImages(prev => [newImage, ...prev])` — the new record is
prepended. -/
def handleImageUpload (prev : List ImageRecord) (downloadURL fileName : String)
    (now : Nat) : List ImageRecord :=
  { id := Nat.repr now, url := downloadURL, fileName := fileName, uploadedAt := now } :: prev

/-- `removeImage` of the upload screen:
`setUploadedImages(prev => prev.filter(img => img.id !== id))`. -/
def removeImage (prev : List ImageRecord) (id : String) : List ImageRecord :=
  prev.filter (fun img => img.id != id)

end UploadScreen

/-! ## Spec-side definitions

These render the specification's wording, to be compared with the
embedded code: a directive-order ranking for §4.2/§8, a boolean substring
test for the error-message requirement, and a direct existential reading
of the extractor's pattern ("optional version segment, then path segment
up to the final extension"). -/

/-- Rank of a transformation directive by its tag, following the spec's
required order: dimensions (`w_`, `h_`), then crop (`c_`), then quality
(`q_`), then format (`f_`); 5 marks a string that is no directive. -/
def dirRank (d : String) : Nat :=
  match d.data with
  | 'w' :: '_' :: _ => 0
  | 'h' :: '_' :: _ => 1
  | 'c' :: '_' :: _ => 2
  | 'q' :: '_' :: _ => 3
  | 'f' :: '_' :: _ => 4
  | _ => 5

/-- `needle` occurs as a contiguous segment of `hay`. -/
def listContains : List Char → List Char → Bool
  | [], needle => needle.isEmpty
  | c :: t, needle => needle.isPrefixOf (c :: t) || listContains t needle

/-- Modelled from the spec: the extractor's pattern, read existentially —
some position carries the literal `/upload/`, optionally followed by a
version segment `v<digits>/`, then a nonempty line-terminator-free
segment, a dot, and a nonempty dot-free extension running to the end. -/
def regexCoreOk (r : List Char) : Bool :=
  (List.range r.length).any fun k =>
    decide (1 ≤ k) &&
    decide ((r.drop k).head? = some '.') &&
    !(r.drop (k + 1)).isEmpty &&
    (r.drop (k + 1)).all (fun c => decide (c ≠ '.')) &&
    (r.take k).all (fun c => !isLineTerm c)

def regexAfterOk (r : List Char) : Bool :=
  regexCoreOk r ||
  (match r with
   | 'v' :: rest =>
     (match rest.takeWhile Char.isDigit, rest.dropWhile Char.isDigit with
      | _ :: _, '/' :: r2 => regexCoreOk r2
      | _, _ => false)
   | _ => false)

def regexMatchesB (s : List Char) : Bool :=
  (List.range (s.length + 1)).any fun i =>
    decide ((s.drop i).take 8 = uploadLit) && regexAfterOk (s.drop (i + 8))

example : buildFilePart ("file:///tmp/photo.png") ("photo.png") =
    .uriPart ("file:///tmp/photo.png") ("image/png") ("photo.png") := by decide

example : buildFilePart ("file:///tmp/photo.jpg") ("photo.jpg") =
    .uriPart ("file:///tmp/photo.jpg") ("image/jpeg") ("photo.jpg") := by decide

example : buildFilePart ("data:image/png;base64,AAAA") ("photo.png") =
    .blobPart ("data:image/png;base64,AAAA") ("photo.png") := by decide

example : regexMatchesB ("https://x/upload/v12/pic.png").data = true := by decide

example : regexMatchesB ("hello world").data = false := by decide

/-! ## Helper lemmas: characters of directive strings -/

def digitChars : List Char := ['0', '5', '1', '6', '2', '7', '3', '8', '4', '9']

/-- Characters that can occur in a joined transformation string. -/
def dirValueChars : List Char :=
  ['w', '0', 'h', '5', 'c', '1', 'q', '6', 'f', '2', 'a', '7', 'b', '3', 'e', '8',
   'g', '4', 'i', '9', 'j', 'l', 'n', 'o', 'p', 'r', 's', 't', 'u', '_', ',']

theorem dirValueChars_clean :
    ∀ c ∈ dirValueChars, isLineTerm c = false ∧ c ≠ '.' ∧ c ≠ '/' ∧ c ≠ 'v' := by
  decide

theorem digitChar_mem (m : Nat) (h : m < 10) : Nat.digitChar m ∈ digitChars := by
  revert m h
  decide

theorem toDigitsCore_mem (fuel : Nat) :
    ∀ (n : Nat) (ds : List Char), (∀ c ∈ ds, c ∈ digitChars) →
      ∀ c ∈ Nat.toDigitsCore 10 fuel n ds, c ∈ digitChars := by
  induction fuel with
  | zero => intro n ds hds c hc; exact hds c hc
  | succ fuel ih =>
    intro n ds hds c hc
    rw [Nat.toDigitsCore] at hc
    have hd : Nat.digitChar (n % 10) ∈ digitChars :=
      digitChar_mem _ (Nat.mod_lt _ (by decide))
    by_cases h0 : n / 10 = 0
    · simp only [h0, if_pos rfl] at hc
      rcases List.mem_cons.mp hc with hc | hc
      · exact hc ▸ hd
      · exact hds c hc
    · simp only [if_neg h0] at hc
      refine ih (n / 10) _ ?_ c hc
      intro c' hc'
      rcases List.mem_cons.mp hc' with hc' | hc'
      · exact hc' ▸ hd
      · exact hds c' hc'

theorem repr_mem_digitChars (n : Nat) : ∀ c ∈ (Nat.repr n).data, c ∈ digitChars := by
  intro c hc
  have : (Nat.repr n).data = Nat.toDigitsCore 10 (n + 1) n [] := rfl
  rw [this] at hc
  exact toDigitsCore_mem (n + 1) n [] (by simp) c hc

theorem digitChars_sub_dirValueChars : ∀ c ∈ digitChars, c ∈ dirValueChars := by decide

theorem repr_mem_dirValueChars (n : Nat) : ∀ c ∈ (Nat.repr n).data, c ∈ dirValueChars :=
  fun c hc => digitChars_sub_dirValueChars c (repr_mem_digitChars n c hc)

theorem qualityStr_mem (q : Quality) : ∀ c ∈ (qualityStr q).data, c ∈ dirValueChars := by
  cases q with
  | auto => decide
  | num n => exact repr_mem_dirValueChars n

theorem formatStr_mem (f : Format) : ∀ c ∈ (formatStr f).data, c ∈ dirValueChars := by
  cases f <;> decide

theorem cropStr_mem (cm : Crop) : ∀ c ∈ (cropStr cm).data, c ∈ dirValueChars := by
  cases cm <;> decide

theorem cropStr_ne (cm : Crop) : cropStr cm ≠ "" := by cases cm <;> decide

theorem formatStr_ne (f : Format) : formatStr f ≠ "" := by cases f <;> decide

theorem jsJoin_comma_mem (ts : List String)
    (h : ∀ d ∈ ts, ∀ c ∈ d.data, c ∈ dirValueChars) :
    ∀ c ∈ (jsJoin "," ts).data, c ∈ dirValueChars := by
  induction ts with
  | nil => intro c hc; simp [jsJoin] at hc
  | cons x xs ih =>
    cases xs with
    | nil => intro c hc; exact h x (by simp) c hc
    | cons y ys =>
      intro c hc
      simp only [jsJoin, String.data_append, List.mem_append] at hc
      rcases hc with (hc | hc) | hc
      · exact h x (by simp) c hc
      · have : c = ',' := by simpa using hc
        subst this; decide
      · exact ih (fun d hd => h d (List.mem_cons_of_mem _ hd)) c hc

@[simp] theorem wTagData (s : String) : ("w_" ++ s).data = 'w' :: '_' :: s.data := rfl

@[simp] theorem hTagData (s : String) : ("h_" ++ s).data = 'h' :: '_' :: s.data := rfl

@[simp] theorem cTagData (s : String) : ("c_" ++ s).data = 'c' :: '_' :: s.data := rfl

@[simp] theorem qTagData (s : String) : ("q_" ++ s).data = 'q' :: '_' :: s.data := rfl

@[simp] theorem fTagData (s : String) : ("f_" ++ s).data = 'f' :: '_' :: s.data := rfl

/-- Full case analysis of the `transformations` array: per truthiness of
the two dimensions, the concrete directive layout. -/
theorem transformList_cases (o : ImageOptions) :
    transformList o =
      (if truthyNat o.width = true then
         (if truthyNat o.height = true then
            ["w_" ++ Nat.repr (o.width.getD 0) ++ "," ++ ("h_" ++ Nat.repr (o.height.getD 0)),
             "c_" ++ cropStr (o.crop.getD .fill)]
          else ["w_" ++ Nat.repr (o.width.getD 0), "c_" ++ cropStr (o.crop.getD .fill)])
       else
         (if truthyNat o.height = true then
            ["h_" ++ Nat.repr (o.height.getD 0), "c_" ++ cropStr (o.crop.getD .fill)]
          else [])) ++
      (if truthyQuality (o.quality.getD .auto) = true then
        ["q_" ++ qualityStr (o.quality.getD .auto)] else []) ++
      ["f_" ++ formatStr (o.format.getD .auto)] := by
  by_cases hw : truthyNat o.width = true <;> by_cases hh : truthyNat o.height = true <;>
    simp [transformList, hw, hh, cropStr_ne, formatStr_ne, jsJoin]

theorem transformList_ne_nil (o : ImageOptions) : transformList o ≠ [] := by
  rw [transformList_cases]
  simp

theorem qPrefixFalse (c : Char) (h : c ≠ 'q') (l : List Char) :
    ("q_").data.isPrefixOf (c :: l) = false := by
  have hq : ("q_" : String).data = ['q', '_'] := rfl
  rw [hq]
  simp only [List.isPrefixOf, Bool.and_eq_false_iff]
  left
  simpa using fun hqc => h hqc.symm

/-! ## Claim C2 -/

/-- C2 (counterexample): `getOptimizedImageUrl("abc123",
{width:400, height:300, quality:'auto', format:'webp'})` does not put a
`'/'` between the dimension group and the crop/quality/format group — the
code joins every directive with commas — so the URL claimed by the spec is
not the one returned. -/
theorem c2_counterexample :
    getOptimizedImageUrl ("abc123")
      { width := some 400, height := some 300, quality := some .auto, format := some .webp } ≠
    "https://res.cloudinary.com/your-cloud-name/image/upload/w_400,h_300/c_fill,q_auto,f_webp/abc123" := by
  decide

/-- C2 (amended): the suffix after `/image/upload/` is
`w_400,h_300,c_fill,q_auto,f_webp/abc123` — every transformation directive
is joined with commas (dimensions, then the default crop `fill`, then
quality, then format) and a single `'/'` separates the directive list from
the assetId. -/
theorem c2_amended :
    getOptimizedImageUrl ("abc123")
      { width := some 400, height := some 300, quality := some .auto, format := some .webp } =
    "https://res.cloudinary.com/your-cloud-name/image/upload/" ++
      ("w_400,h_300,c_fill,q_auto,f_webp/abc123") := by
  decide

/-! ## Claim C4 -/

/-- C4: with no width, no height and no crop, and quality/format left to
their defaults, the URL still carries the default quality and format
directives: it is exactly the fixed prefix, then `q_auto,f_auto/`, then
the assetId. -/
theorem c4_defaults_emit_quality_and_format (publicId : String) :
    getOptimizedImageUrl publicId {} =
      "https://res.cloudinary.com/your-cloud-name/image/upload/" ++
        ("q_auto,f_auto/" ++ publicId) := rfl

/-! ## Claim C10 -/

/-- C10: when `quality` is the number `0`, the falsy test `if (quality)`
skips the quality directive entirely: no entry of the transformations
array starts with `q_`. -/
theorem c10_quality_zero_no_quality_directive (o : ImageOptions)
    (h : o.quality = some (Quality.num 0)) :
    ∀ d ∈ transformList o, ("q_").data.isPrefixOf d.data = false := by
  have hq : truthyQuality (o.quality.getD .auto) = false := by
    rw [h]; rfl
  intro d hd
  rw [transformList_cases, hq] at hd
  simp only [Bool.false_eq_true, if_false, List.nil_append] at hd
  by_cases hw : truthyNat o.width = true <;> by_cases hh : truthyNat o.height = true <;>
    simp only [hw, hh, Bool.false_eq_true, if_true, if_false, List.nil_append,
      List.append_nil, List.mem_append, List.mem_singleton, List.mem_cons,
      List.not_mem_nil, false_or, or_false] at hd <;>
    rcases hd with (rfl | rfl) | rfl <;> simp [List.isPrefixOf]

/-- C10 (witness): at `quality = 0` with a width of 400, the concrete
transformations array and the absence of a `q_` entry. -/
theorem c10_witness :
    ({ width := some 400, quality := some (Quality.num 0) } : ImageOptions).quality =
      some (Quality.num 0) ∧
    ∀ d ∈ transformList { width := some 400, quality := some (Quality.num 0) },
      ("q_").data.isPrefixOf d.data = false :=
  ⟨rfl, c10_quality_zero_no_quality_directive _ rfl⟩

/-! ## Claim C8 -/

/-- C8 (counterexample): the context-hook registry's `addImage` uses
`[...images, newImage]`, which appends.  Starting from a one-record state,
the newly synthesized record (id `"2"`, from timestamp 2) is the last
element of the result and the first element is still the old record, so
the new record is not prepended. -/
theorem c8_counterexample :
    ImageContextHook.addImage
        [{ id := "1", url := "u0", fileName := "f0", uploadedAt := 1 }] ("u1") ("f1") 2 =
      [{ id := "1", url := "u0", fileName := "f0", uploadedAt := 1 },
       { id := "2", url := "u1", fileName := "f1", uploadedAt := 2 }] ∧
    (ImageContextHook.addImage
        [{ id := "1", url := "u0", fileName := "f0", uploadedAt := 1 }] ("u1") ("f1") 2).head? ≠
      some { id := "2", url := "u1", fileName := "f1", uploadedAt := 2 } := by
  constructor
  · rfl
  · decide

/-- C8 (amended): the upload screen's registry prepends — the new record
(with time-based id) becomes the first element and the previous elements
follow in their prior order — while the persisted context-hook registry's
`addImage` appends: the new record becomes the last element and the
previous elements keep their positions at the front. -/
theorem c8_amended (prev : List ImageRecord) (url fileName : String) (now : Nat) :
    (UploadScreen.handleImageUpload prev url fileName now).head? =
      some { id := Nat.repr now, url := url, fileName := fileName, uploadedAt := now } ∧
    (UploadScreen.handleImageUpload prev url fileName now).tail = prev ∧
    (ImageContextHook.addImage prev url fileName now).getLast? =
      some { id := Nat.repr now, url := url, fileName := fileName, uploadedAt := now } ∧
    (ImageContextHook.addImage prev url fileName now).dropLast = prev := by
  refine ⟨rfl, rfl, ?_, ?_⟩
  · simp [ImageContextHook.addImage]
  · simp [ImageContextHook.addImage]

/-! ## Claim C9 -/

/-- C9: when the synthesized id (`Date.now().toString()`) does not occur
in the registry, `addImage` followed by `removeImage` of that id returns
the registry to its prior state, element for element. -/
theorem c9_add_then_remove (images : List ImageRecord) (url fileName : String) (now : Nat)
    (h : ∀ r ∈ images, r.id ≠ Nat.repr now) :
    ImageContextHook.removeImage
        (ImageContextHook.addImage images url fileName now) (Nat.repr now) = images := by
  unfold ImageContextHook.addImage ImageContextHook.removeImage
  rw [List.filter_append]
  have h1 : List.filter (fun img => img.id != Nat.repr now)
      [{ id := Nat.repr now, url := url, fileName := fileName, uploadedAt := now }] =
      ([] : List ImageRecord) := by
    simp
  rw [h1, List.append_nil]
  refine List.filter_eq_self.mpr ?_
  intro a ha
  simpa using h a ha

/-- C9 (witness): a concrete one-record registry, a fresh timestamp 2. -/
theorem c9_witness :
    (∀ r ∈ [({ id := "1", url := "u0", fileName := "f0", uploadedAt := 1 } : ImageRecord)],
      r.id ≠ Nat.repr 2) ∧
    ImageContextHook.removeImage
        (ImageContextHook.addImage
          [{ id := "1", url := "u0", fileName := "f0", uploadedAt := 1 }] ("u1") ("f1") 2)
        (Nat.repr 2) =
      [{ id := "1", url := "u0", fileName := "f0", uploadedAt := 1 }] :=
  ⟨by decide, c9_add_then_remove _ _ _ _ (by decide)⟩

/-! ## Claim C5 -/

theorem isPrefixOf_append_self (n y : List Char) : n.isPrefixOf (n ++ y) = true := by
  induction n with
  | nil => simp [List.isPrefixOf]
  | cons a as ih => simp [List.isPrefixOf, ih]

theorem listContains_of_isPrefixOf (hay n : List Char) (h : n.isPrefixOf hay = true) :
    listContains hay n = true := by
  cases hay with
  | nil =>
    cases n with
    | nil => rfl
    | cons a as => simp [List.isPrefixOf] at h
  | cons c t => simp [listContains, h]

theorem listContains_append_self (x n y : List Char) :
    listContains (x ++ (n ++ y)) n = true := by
  induction x with
  | nil => exact listContains_of_isPrefixOf _ _ (isPrefixOf_append_self n y)
  | cons c x' ih => simp [listContains, ih]

/-- C5 (counterexample): when the Firebase backend fails with HTTP 500,
`uploadImageToFirebase` throws the fixed message
`Failed to upload image to Firebase`, which does not contain the status
code `500`. -/
theorem c5_counterexample :
    uploadImageToFirebase (.error { status := 500, message := "Internal Server Error" }) =
      .error ("Failed to upload image to Firebase") ∧
    listContains ("Failed to upload image to Firebase").data (Nat.repr 500).data = false := by
  exact ⟨rfl, by decide⟩

/-- C5 (amended): on a non-2xx response, `uploadImageToCloudinary` throws
an error whose message contains the HTTP status code, while
`uploadImageToFirebase` collapses every failure to the fixed message
`Failed to upload image to Firebase`, which carries no status. -/
theorem c5_amended (r : HttpResponse) (jsonResult : Except String String)
    (h : respOk r = false) :
    (∃ m, uploadImageToCloudinary (.ok r) jsonResult = .error m ∧
      listContains m.data (Nat.repr r.status).data = true) ∧
    (∀ e : FirebaseFailure,
      uploadImageToFirebase (.error e) = .error ("Failed to upload image to Firebase")) := by
  constructor
  · refine ⟨"Failed to upload image to Cloudinary: " ++
      ("Upload failed: " ++ Nat.repr r.status ++ " " ++ r.statusText), ?_, ?_⟩
    · simp [uploadImageToCloudinary, cloudinaryTryBlock, h]
    · have : ("Failed to upload image to Cloudinary: " ++
          ("Upload failed: " ++ Nat.repr r.status ++ " " ++ r.statusText)).data =
          (("Failed to upload image to Cloudinary: ").data ++ ("Upload failed: ").data) ++
            ((Nat.repr r.status).data ++ ((" ").data ++ r.statusText.data)) := by
        simp
      rw [this]
      exact listContains_append_self _ _ _
  · intro e
    rfl

/-- C5 (witness): a concrete 404 response. -/
theorem c5_witness :
    respOk { status := 404, statusText := "Not Found", bodyText := "" } = false ∧
    ((∃ m, uploadImageToCloudinary
        (.ok { status := 404, statusText := "Not Found", bodyText := "" })
        (.error ("ignored")) = .error m ∧
      listContains m.data (Nat.repr 404).data = true) ∧
    (∀ e : FirebaseFailure,
      uploadImageToFirebase (.error e) = .error ("Failed to upload image to Firebase"))) :=
  ⟨by decide, c5_amended _ _ (by decide)⟩

/-! ## Claim C6 -/

theorem splitOnChar_ne_nil (sep : Char) (l : List Char) : splitOnChar sep l ≠ [] := by
  cases l with
  | nil => simp [splitOnChar]
  | cons c cs =>
    simp only [splitOnChar]
    split
    · simp
    · split <;> simp

theorem splitOnChar_no_sep (sep : Char) (l : List Char) (h : sep ∉ l) :
    splitOnChar sep l = [l] := by
  induction l with
  | nil => rfl
  | cons c cs ih =>
    have hc : c ≠ sep := fun hcs => h (hcs ▸ List.mem_cons_self c cs)
    have hcs : sep ∉ cs := fun hin => h (List.mem_cons_of_mem _ hin)
    simp [splitOnChar, ih hcs, hc]

theorem splitOnChar_length_two (sep : Char) (l : List Char) (h : sep ∈ l) :
    2 ≤ (splitOnChar sep l).length := by
  induction l with
  | nil => simp at h
  | cons c cs ih =>
    cases hsp : splitOnChar sep cs with
    | nil => exact absurd hsp (splitOnChar_ne_nil sep cs)
    | cons g gs =>
      by_cases hc : c = sep
      · simp [splitOnChar, hsp, hc]
      · have hin : sep ∈ cs := by
          rcases List.mem_cons.mp h with h1 | h1
          · exact absurd h1.symm hc
          · exact h1
        have h2 := ih hin
        rw [hsp] at h2
        simp only [List.length_cons] at h2
        simp only [splitOnChar, hsp, hc, if_false, List.length_cons]
        simpa using h2

theorem getLastD_irrel {α : Type} (l : List α) (d d' : α) (h : l ≠ []) :
    l.getLastD d = l.getLastD d' := by
  cases l with
  | nil => exact absurd rfl h
  | cons a as => rfl

theorem splitOnChar_getLastD (E : List Char) (hE : '.' ∉ E) (xs : List Char) :
    (splitOnChar '.' (xs ++ '.' :: E)).getLastD [] = E := by
  induction xs with
  | nil =>
    simp only [List.nil_append, splitOnChar, splitOnChar_no_sep '.' E hE, if_pos rfl]
    rfl
  | cons x xs' ih =>
    cases hsp : splitOnChar '.' (xs' ++ '.' :: E) with
    | nil => exact absurd hsp (splitOnChar_ne_nil _ _)
    | cons g gs =>
      rw [hsp] at ih
      have hgs : gs ≠ [] := by
        intro hnil
        have h2 := splitOnChar_length_two '.' (xs' ++ '.' :: E) (by simp)
        rw [hsp, hnil] at h2
        simp at h2
      have hred : splitOnChar '.' ((x :: xs') ++ '.' :: E) =
          if x = '.' then [] :: g :: gs else (x :: g) :: gs := by
        rw [List.cons_append, splitOnChar, hsp]
      rw [hred]
      by_cases hx : x = '.'
      · rw [if_pos hx]
        calc ([] :: g :: gs).getLastD [] = (g :: gs).getLastD [] := rfl
          _ = E := ih
      · rw [if_neg hx]
        calc ((x :: g) :: gs).getLastD [] = gs.getLastD (x :: g) := List.getLastD_cons _ _ _
          _ = gs.getLastD g := getLastD_irrel gs _ _ hgs
          _ = (g :: gs).getLastD [] := (List.getLastD_cons _ _ _).symm
          _ = E := ih

theorem string_data_ne_nil (s : String) (h : s ≠ "") : s.data ≠ [] := by
  intro hd
  apply h
  cases s with
  | mk l => cases hd; rfl

theorem fileExtension_of_dotted (base ext : String) (he : ext ≠ "") (hd : '.' ∉ ext.data) :
    fileExtension (base ++ "." ++ ext) = ext := by
  unfold fileExtension
  have hdata : (base ++ "." ++ ext).data = base.data ++ '.' :: ext.data := by
    simp
  rw [hdata, splitOnChar_getLastD ext.data hd base.data]
  rw [if_neg (by simpa [List.isEmpty_iff] using string_data_ne_nil ext he)]
  exact String.asString_toList ext

/-- C6: the `file` field of the multipart payload.  A `data:` source is
decoded to a blob and appended as the blob; any other source is appended
as a direct `{uri, type, name}` reference whose MIME type comes from the
trailing extension of the file name: `jpg` becomes `image/jpeg`, any
other extension `ext` becomes `image/<ext>`. -/
theorem c6_file_part (imageUri fileName base ext : String)
    (hn : fileName = base ++ "." ++ ext) (he : ext ≠ "") (hd : '.' ∉ ext.data) :
    (("data:").data.isPrefixOf imageUri.data = true →
      buildFilePart imageUri fileName = .blobPart imageUri fileName) ∧
    (("data:").data.isPrefixOf imageUri.data = false →
      buildFilePart imageUri fileName =
        .uriPart imageUri
          (if ext = "jpg" then ("image/jpeg") else "image/" ++ ext) fileName) := by
  constructor
  · intro hpre
    unfold buildFilePart
    rw [if_pos hpre]
  · intro hpre
    unfold buildFilePart
    rw [if_neg (by simp [hpre])]
    rw [hn, fileExtension_of_dotted base ext he hd]
    by_cases hj : ext = "jpg"
    · rw [if_pos hj, if_pos hj]
      rfl
    · rw [if_neg hj, if_neg hj]

/-- C6 (witness): a mobile file URI named `photo.png` yields a direct URI
part with MIME type `image/png`. -/
theorem c6_witness :
    ("photo.png" : String) = "photo" ++ "." ++ "png" ∧
    (("data:").data.isPrefixOf ("file:///tmp/photo.png").data = false →
      buildFilePart ("file:///tmp/photo.png") ("photo.png") =
        .uriPart ("file:///tmp/photo.png")
          (if ("png" : String) = "jpg" then ("image/jpeg") else "image/" ++ "png")
          ("photo.png")) :=
  ⟨by decide,
   (c6_file_part ("file:///tmp/photo.png") ("photo.png") ("photo") ("png")
      (by decide) (by decide) (by decide)).2⟩

/-! ## Claim C7 -/

theorem splitLastDot_none (l : List Char) (h : splitLastDot l = none) : '.' ∉ l := by
  induction l with
  | nil => simp
  | cons c cs ih =>
    simp only [splitLastDot] at h
    cases hsp : splitLastDot cs with
    | some p => rw [hsp] at h; simp at h
    | none =>
      rw [hsp] at h
      by_cases hc : c = '.'
      · rw [if_pos hc] at h; simp at h
      · rw [if_neg hc] at h
        intro hmem
        rcases List.mem_cons.mp hmem with h1 | h1
        · exact hc h1.symm
        · exact ih hsp h1

theorem splitLastDot_eq (l : List Char) :
    ∀ a b, splitLastDot l = some (a, b) → l = a ++ '.' :: b ∧ '.' ∉ b := by
  induction l with
  | nil => intro a b h; simp [splitLastDot] at h
  | cons c cs ih =>
    intro a b h
    simp only [splitLastDot] at h
    cases hsp : splitLastDot cs with
    | some p =>
      obtain ⟨a', b'⟩ := p
      rw [hsp] at h
      have h1 : c :: a' = a ∧ b' = b := by
        constructor <;> [exact congrArg Prod.fst (Option.some.inj h);
          exact congrArg Prod.snd (Option.some.inj h)]
      obtain ⟨ha, hb⟩ := h1
      obtain ⟨hcs, hnb⟩ := ih a' b' hsp
      subst ha hb
      exact ⟨by rw [hcs]; rfl, hnb⟩
    | none =>
      rw [hsp] at h
      by_cases hc : c = '.'
      · rw [if_pos hc] at h
        have h1 : ([] : List Char) = a ∧ cs = b := by
          constructor <;> [exact congrArg Prod.fst (Option.some.inj h);
            exact congrArg Prod.snd (Option.some.inj h)]
        obtain ⟨ha, hb⟩ := h1
        subst ha hb hc
        exact ⟨rfl, splitLastDot_none _ hsp⟩
      · rw [if_neg hc] at h
        simp at h

theorem coreMatch_sound (r a : List Char) (h : coreMatch r = some a) :
    regexCoreOk r = true := by
  unfold coreMatch at h
  cases hsp : splitLastDot r with
  | none => rw [hsp] at h; simp at h
  | some p =>
    obtain ⟨a', b⟩ := p
    rw [hsp] at h
    have h' : (if (!a'.isEmpty && !b.isEmpty && (a'.all fun c => !isLineTerm c)) = true
        then some a' else none) = some a := h
    by_cases hcnd : (!a'.isEmpty && !b.isEmpty && (a'.all fun c => !isLineTerm c)) = true
    · obtain ⟨hr, hb⟩ := splitLastDot_eq r a' b hsp
      simp only [Bool.and_eq_true, Bool.not_eq_true'] at hcnd
      obtain ⟨⟨ha'ne, hbne⟩, hclean⟩ := hcnd
      unfold regexCoreOk
      rw [List.any_eq_true]
      refine ⟨a'.length, ?_, ?_⟩
      · rw [List.mem_range, hr]
        simp only [List.length_append, List.length_cons]
        omega
      · have hdrop : r.drop a'.length = '.' :: b := by
          rw [hr]; exact List.drop_left _ _
        have hdrop1 : r.drop (a'.length + 1) = b := by
          rw [hr, List.drop_append 1]
          rfl
        have htake : r.take a'.length = a' := by
          rw [hr]; exact List.take_left _ _
        rw [hdrop, hdrop1, htake]
        have h1 : decide (1 ≤ a'.length) = true := by
          cases a' with
          | nil => simp at ha'ne
          | cons x xs => simp
        have h2 : b.all (fun c => decide (c ≠ '.')) = true := by
          rw [List.all_eq_true]
          intro c hc
          exact decide_eq_true (fun he => hb (he ▸ hc))
        simp [h1, h2, hbne, hclean]
        exact fun x hx he => hb (he ▸ hx)
    · rw [if_neg hcnd] at h'
      simp at h'

theorem matchAfterUpload_sound (r a : List Char) (h : matchAfterUpload r = some a) :
    regexAfterOk r = true := by
  cases r with
  | nil => simp [matchAfterUpload] at h
  | cons c cs =>
    by_cases hc : c = 'v'
    · subst hc
      have h' : (match List.takeWhile Char.isDigit cs, List.dropWhile Char.isDigit cs with
          | _ :: _, '/' :: r2 =>
            (match coreMatch r2 with
             | some a => some a
             | none => coreMatch ('v' :: cs))
          | _, _ => coreMatch ('v' :: cs)) = some a := h
      split at h'
      · rename_i d0 ds r2 heq1 heq2
        cases hcm : coreMatch r2 with
        | some a' =>
          unfold regexAfterOk
          rw [Bool.or_eq_true]
          refine Or.inr ?_
          have hred : (match ('v' :: cs : List Char) with
              | 'v' :: rest =>
                (match rest.takeWhile Char.isDigit, rest.dropWhile Char.isDigit with
                 | _ :: _, '/' :: r2 => regexCoreOk r2
                 | _, _ => false)
              | _ => false) =
              (match cs.takeWhile Char.isDigit, cs.dropWhile Char.isDigit with
               | _ :: _, '/' :: r2 => regexCoreOk r2
               | _, _ => false) := rfl
          rw [hred, heq1, heq2]
          exact coreMatch_sound _ _ hcm
        | none =>
          rw [hcm] at h'
          unfold regexAfterOk
          rw [Bool.or_eq_true]
          exact Or.inl (coreMatch_sound _ _ h')
      · unfold regexAfterOk
        rw [Bool.or_eq_true]
        exact Or.inl (coreMatch_sound _ _ h')
    · have h0 : (if c = 'v' then
          (match List.takeWhile Char.isDigit cs, List.dropWhile Char.isDigit cs with
           | _ :: _, '/' :: r2 =>
             (match coreMatch r2 with
              | some a => some a
              | none => coreMatch (c :: cs))
           | _, _ => coreMatch (c :: cs))
          else coreMatch (c :: cs)) = some a := h
      rw [if_neg hc] at h0
      unfold regexAfterOk
      rw [Bool.or_eq_true]
      exact Or.inl (coreMatch_sound _ _ h0)

theorem scan_sound (s a : List Char) (h : scan s = some a) : regexMatchesB s = true := by
  induction s with
  | nil => simp [scan] at h
  | cons c cs ih =>
    unfold scan at h
    by_cases ht : (c :: cs).take 8 = uploadLit
    · rw [if_pos ht] at h
      cases hm : matchAfterUpload ((c :: cs).drop 8) with
      | some a' =>
        unfold regexMatchesB
        rw [List.any_eq_true]
        refine ⟨0, by simp, ?_⟩
        simp only [List.drop_zero, Nat.zero_add]
        rw [decide_eq_true ht, matchAfterUpload_sound _ _ hm]
        rfl
      | none =>
        rw [hm] at h
        have hcs := ih h
        unfold regexMatchesB at hcs ⊢
        rw [List.any_eq_true] at hcs ⊢
        obtain ⟨i, hi, hcond⟩ := hcs
        refine ⟨i + 1, ?_, ?_⟩
        · simp only [List.mem_range, List.length_cons] at hi ⊢
          omega
        · simpa using hcond
    · rw [if_neg ht] at h
      have hcs := ih h
      unfold regexMatchesB at hcs ⊢
      rw [List.any_eq_true] at hcs ⊢
      obtain ⟨i, hi, hcond⟩ := hcs
      refine ⟨i + 1, ?_, ?_⟩
      · simp only [List.mem_range, List.length_cons] at hi ⊢
        omega
      · simpa using hcond

/-- C7: `extractPublicIdFromUrl` is total; whenever its input does not
match the pattern (some occurrence of `/upload/`, an optional version
segment `v<digits>/`, then a segment ending in a dot-extension), it
returns the empty string — the silent-failure policy. -/
theorem c7_no_match_returns_empty (url : String) (h : regexMatchesB url.data = false) :
    extractPublicIdFromUrl url = "" := by
  unfold extractPublicIdFromUrl
  cases hs : scan url.data with
  | none => rfl
  | some a => exact absurd (scan_sound _ _ hs) (by simp [h])

/-- C7 (witness): a string with no `/upload/` at all. -/
theorem c7_witness :
    regexMatchesB ("hello world").data = false ∧
    extractPublicIdFromUrl ("hello world") = "" :=
  ⟨by decide, c7_no_match_returns_empty _ (by decide)⟩

/-! ## Claim C3 -/

theorem transformList_pos (o : ImageOptions) : 0 < (transformList o).length :=
  List.length_pos.mpr (transformList_ne_nil o)

theorem transformationString_eq (o : ImageOptions) :
    transformationString o = jsJoin "," (transformList o) ++ "/" := by
  unfold transformationString
  rw [if_pos (transformList_pos o)]

theorem getOptimizedImageUrl_eq (publicId : String) (o : ImageOptions) :
    getOptimizedImageUrl publicId o =
      "https://res.cloudinary.com/your-cloud-name/image/upload/" ++
        (jsJoin "," (transformList o) ++ ("/" ++ publicId)) := by
  unfold getOptimizedImageUrl
  rw [transformationString_eq]
  rw [String.append_assoc (jsJoin "," (transformList o)) "/" publicId]
  rfl

theorem jsJoin_merge (x y : String) (rest : List String) :
    jsJoin "," ((x ++ "," ++ y) :: rest) = jsJoin "," (x :: y :: rest) := by
  cases rest with
  | nil => rfl
  | cons z zs => simp [jsJoin, String.append_assoc]

@[simp] theorem dirRank_w (s : String) : dirRank ("w_" ++ s) = 0 := rfl

@[simp] theorem dirRank_h (s : String) : dirRank ("h_" ++ s) = 1 := rfl

@[simp] theorem dirRank_c (s : String) : dirRank ("c_" ++ s) = 2 := rfl

@[simp] theorem dirRank_q (s : String) : dirRank ("q_" ++ s) = 3 := rfl

@[simp] theorem dirRank_f (s : String) : dirRank ("f_" ++ s) = 4 := rfl

theorem comma_not_mem_repr (n : Nat) : ',' ∉ (Nat.repr n).data := fun hm => by
  have h := repr_mem_digitChars n ',' hm
  revert h
  decide

theorem comma_not_w (n : Nat) : ',' ∉ ("w_" ++ Nat.repr n).data := by
  rw [wTagData]
  intro hm
  rcases List.mem_cons.mp hm with h1 | hm2
  · exact absurd h1 (by decide)
  rcases List.mem_cons.mp hm2 with h1 | hm3
  · exact absurd h1 (by decide)
  · exact comma_not_mem_repr n hm3

theorem comma_not_h (n : Nat) : ',' ∉ ("h_" ++ Nat.repr n).data := by
  rw [hTagData]
  intro hm
  rcases List.mem_cons.mp hm with h1 | hm2
  · exact absurd h1 (by decide)
  rcases List.mem_cons.mp hm2 with h1 | hm3
  · exact absurd h1 (by decide)
  · exact comma_not_mem_repr n hm3

theorem comma_not_c (cm : Crop) : ',' ∉ ("c_" ++ cropStr cm).data := by
  cases cm <;> decide

theorem comma_not_q (q : Quality) : ',' ∉ ("q_" ++ qualityStr q).data := by
  cases q with
  | auto => decide
  | num n =>
    rw [qTagData]
    intro hm
    rcases List.mem_cons.mp hm with h1 | hm2
    · exact absurd h1 (by decide)
    rcases List.mem_cons.mp hm2 with h1 | hm3
    · exact absurd h1 (by decide)
    · exact comma_not_mem_repr n hm3

theorem comma_not_f (f : Format) : ',' ∉ ("f_" ++ formatStr f).data := by
  cases f <;> decide

/-- C3 (counterexample): with `width: 0` the width option is given, yet
`0` is falsy, so the builder emits no dimension entry and no crop
directive at all — refuting the claimed "crop appears iff a dimension is
given".  The whole URL is the default `q_auto,f_auto` one and no
transformations entry starts with `c_`. -/
theorem c3_counterexample :
    (({ width := some 0 } : ImageOptions)).width.isSome = true ∧
    getOptimizedImageUrl ("sample") { width := some 0 } =
      "https://res.cloudinary.com/your-cloud-name/image/upload/q_auto,f_auto/sample" ∧
    (∀ d ∈ transformList { width := some 0 }, ("c_").data.isPrefixOf d.data = false) := by
  refine ⟨rfl, by decide, by decide⟩

/-- C3 (amended): for every option combination, the URL decomposes as the
fixed prefix, a nonempty comma-joined list of comma-free directives, a
single slash and the assetId; the directives carry ranks in the order
dimensions (`w_`, `h_`), crop (`c_`), quality (`q_`), format (`f_`), and
a crop directive appears iff at least one of width or height is given and
truthy (nonzero). -/
theorem c3_amended (publicId : String) (o : ImageOptions) :
    ∃ ts : List String,
      getOptimizedImageUrl publicId o =
        "https://res.cloudinary.com/your-cloud-name/image/upload/" ++
          (jsJoin "," ts ++ ("/" ++ publicId)) ∧
      ts ≠ [] ∧
      (∀ d ∈ ts, dirRank d ≤ 4 ∧ ',' ∉ d.data) ∧
      List.Chain' (fun d e => dirRank d ≤ dirRank e) ts ∧
      ((∃ d ∈ ts, dirRank d = 2) ↔ (truthyNat o.width = true ∨ truthyNat o.height = true)) := by
  have hurl := getOptimizedImageUrl_eq publicId o
  rw [transformList_cases] at hurl
  by_cases hw : truthyNat o.width = true <;> by_cases hh : truthyNat o.height = true <;>
    by_cases hq : truthyQuality (o.quality.getD .auto) = true <;>
    simp only [hw, hh, hq, if_true, if_false, Bool.false_eq_true, List.nil_append,
      List.append_nil, List.cons_append, List.singleton_append] at hurl
  · rw [jsJoin_merge] at hurl
    refine ⟨["w_" ++ Nat.repr (o.width.getD 0), "h_" ++ Nat.repr (o.height.getD 0),
      "c_" ++ cropStr (o.crop.getD .fill), "q_" ++ qualityStr (o.quality.getD .auto),
      "f_" ++ formatStr (o.format.getD .auto)], hurl, by simp, ?_, by simp, ?_⟩
    · intro d hd
      simp only [List.mem_cons, List.not_mem_nil, or_false] at hd
      rcases hd with rfl | rfl | rfl | rfl | rfl
      · exact ⟨by simp, comma_not_w _⟩
      · exact ⟨by simp, comma_not_h _⟩
      · exact ⟨by simp, comma_not_c _⟩
      · exact ⟨by simp, comma_not_q _⟩
      · exact ⟨by simp, comma_not_f _⟩
    · exact iff_of_true ⟨"c_" ++ cropStr (o.crop.getD .fill), by simp, by simp⟩ (Or.inl hw)
  · rw [jsJoin_merge] at hurl
    refine ⟨["w_" ++ Nat.repr (o.width.getD 0), "h_" ++ Nat.repr (o.height.getD 0),
      "c_" ++ cropStr (o.crop.getD .fill), "f_" ++ formatStr (o.format.getD .auto)],
      hurl, by simp, ?_, by simp, ?_⟩
    · intro d hd
      simp only [List.mem_cons, List.not_mem_nil, or_false] at hd
      rcases hd with rfl | rfl | rfl | rfl
      · exact ⟨by simp, comma_not_w _⟩
      · exact ⟨by simp, comma_not_h _⟩
      · exact ⟨by simp, comma_not_c _⟩
      · exact ⟨by simp, comma_not_f _⟩
    · exact iff_of_true ⟨"c_" ++ cropStr (o.crop.getD .fill), by simp, by simp⟩ (Or.inl hw)
  · refine ⟨["w_" ++ Nat.repr (o.width.getD 0), "c_" ++ cropStr (o.crop.getD .fill),
      "q_" ++ qualityStr (o.quality.getD .auto), "f_" ++ formatStr (o.format.getD .auto)],
      hurl, by simp, ?_, by simp, ?_⟩
    · intro d hd
      simp only [List.mem_cons, List.not_mem_nil, or_false] at hd
      rcases hd with rfl | rfl | rfl | rfl
      · exact ⟨by simp, comma_not_w _⟩
      · exact ⟨by simp, comma_not_c _⟩
      · exact ⟨by simp, comma_not_q _⟩
      · exact ⟨by simp, comma_not_f _⟩
    · exact iff_of_true ⟨"c_" ++ cropStr (o.crop.getD .fill), by simp, by simp⟩ (Or.inl hw)
  · refine ⟨["w_" ++ Nat.repr (o.width.getD 0), "c_" ++ cropStr (o.crop.getD .fill),
      "f_" ++ formatStr (o.format.getD .auto)], hurl, by simp, ?_, by simp, ?_⟩
    · intro d hd
      simp only [List.mem_cons, List.not_mem_nil, or_false] at hd
      rcases hd with rfl | rfl | rfl
      · exact ⟨by simp, comma_not_w _⟩
      · exact ⟨by simp, comma_not_c _⟩
      · exact ⟨by simp, comma_not_f _⟩
    · exact iff_of_true ⟨"c_" ++ cropStr (o.crop.getD .fill), by simp, by simp⟩ (Or.inl hw)
  · refine ⟨["h_" ++ Nat.repr (o.height.getD 0), "c_" ++ cropStr (o.crop.getD .fill),
      "q_" ++ qualityStr (o.quality.getD .auto), "f_" ++ formatStr (o.format.getD .auto)],
      hurl, by simp, ?_, by simp, ?_⟩
    · intro d hd
      simp only [List.mem_cons, List.not_mem_nil, or_false] at hd
      rcases hd with rfl | rfl | rfl | rfl
      · exact ⟨by simp, comma_not_h _⟩
      · exact ⟨by simp, comma_not_c _⟩
      · exact ⟨by simp, comma_not_q _⟩
      · exact ⟨by simp, comma_not_f _⟩
    · exact iff_of_true ⟨"c_" ++ cropStr (o.crop.getD .fill), by simp, by simp⟩ (Or.inr hh)
  · refine ⟨["h_" ++ Nat.repr (o.height.getD 0), "c_" ++ cropStr (o.crop.getD .fill),
      "f_" ++ formatStr (o.format.getD .auto)], hurl, by simp, ?_, by simp, ?_⟩
    · intro d hd
      simp only [List.mem_cons, List.not_mem_nil, or_false] at hd
      rcases hd with rfl | rfl | rfl
      · exact ⟨by simp, comma_not_h _⟩
      · exact ⟨by simp, comma_not_c _⟩
      · exact ⟨by simp, comma_not_f _⟩
    · exact iff_of_true ⟨"c_" ++ cropStr (o.crop.getD .fill), by simp, by simp⟩ (Or.inr hh)
  · refine ⟨["q_" ++ qualityStr (o.quality.getD .auto), "f_" ++ formatStr (o.format.getD .auto)],
      hurl, by simp, ?_, by simp, ?_⟩
    · intro d hd
      simp only [List.mem_cons, List.not_mem_nil, or_false] at hd
      rcases hd with rfl | rfl
      · exact ⟨by simp, comma_not_q _⟩
      · exact ⟨by simp, comma_not_f _⟩
    · refine iff_of_false ?_ ?_
      · rintro ⟨d, hd, hr⟩
        simp only [List.mem_cons, List.not_mem_nil, or_false] at hd
        rcases hd with rfl | rfl <;> simp at hr
      · rintro (h1 | h1)
        · exact hw h1
        · exact hh h1
  · refine ⟨["f_" ++ formatStr (o.format.getD .auto)], hurl, by simp, ?_, by simp, ?_⟩
    · intro d hd
      simp only [List.mem_cons, List.not_mem_nil, or_false] at hd
      rcases hd with rfl
      exact ⟨by simp, comma_not_f _⟩
    · refine iff_of_false ?_ ?_
      · rintro ⟨d, hd, hr⟩
        simp only [List.mem_cons, List.not_mem_nil, or_false] at hd
        rcases hd with rfl
        simp at hr
      · rintro (h1 | h1)
        · exact hw h1
        · exact hh h1

/-! ## Claim C1 -/

theorem splitLastDot_no_dot (l : List Char) (h : '.' ∉ l) : splitLastDot l = none := by
  induction l with
  | nil => rfl
  | cons c cs ih =>
    have hc : c ≠ '.' := fun he => h (he ▸ List.mem_cons_self c cs)
    have hcs : '.' ∉ cs := fun hin => h (List.mem_cons_of_mem _ hin)
    simp only [splitLastDot, ih hcs]
    rw [if_neg hc]

theorem splitLastDot_append (xs ys a b : List Char) (h : splitLastDot ys = some (a, b)) :
    splitLastDot (xs ++ ys) = some (xs ++ a, b) := by
  induction xs with
  | nil => simpa using h
  | cons x xs' ih =>
    simp only [List.cons_append, splitLastDot, List.append_eq, ih]

theorem coreMatch_result (X E : List Char) (hX : X ≠ [])
    (hXclean : ∀ c ∈ X, isLineTerm c = false)
    (hE : E ≠ []) (hEdot : '.' ∉ E) :
    coreMatch (X ++ '.' :: E) = some X := by
  have h0 : splitLastDot ('.' :: E) = some ([], E) := by
    simp [splitLastDot, splitLastDot_no_dot E hEdot]
  have hsp : splitLastDot (X ++ '.' :: E) = some (X, E) := by
    have h1 := splitLastDot_append X ('.' :: E) [] E h0
    simpa using h1
  have hcond : (!X.isEmpty && !E.isEmpty && (X.all fun c => !isLineTerm c)) = true := by
    have hx : X.isEmpty = false := by
      cases X with
      | nil => exact absurd rfl hX
      | cons y ys => rfl
    have he : E.isEmpty = false := by
      cases E with
      | nil => exact absurd rfl hE
      | cons y ys => rfl
    have hall : (X.all fun c => !isLineTerm c) = true := by
      rw [List.all_eq_true]
      intro c hc
      rw [hXclean c hc]
      rfl
    rw [hx, he, hall]
    rfl
  calc coreMatch (X ++ '.' :: E)
      = (if (!X.isEmpty && !E.isEmpty && (X.all fun c => !isLineTerm c)) = true
         then some X else none) := by
        unfold coreMatch
        rw [hsp]
    _ = some X := by rw [if_pos hcond]

theorem matchAfterUpload_result (T A E : List Char)
    (hT : T ≠ []) (hTc : ∀ c ∈ T, c ∈ dirValueChars)
    (hA : ∀ c ∈ A, isLineTerm c = false)
    (hE : E ≠ []) (hEdot : '.' ∉ E) :
    matchAfterUpload (T ++ '/' :: (A ++ '.' :: E)) = some (T ++ '/' :: A) := by
  have hXclean : ∀ c ∈ T ++ '/' :: A, isLineTerm c = false := by
    intro c hc
    rcases List.mem_append.mp hc with h1 | h1
    · have h2 := hTc c h1
      exact ((dirValueChars_clean c h2).1)
    · rcases List.mem_cons.mp h1 with h2 | h2
      · subst h2; rfl
      · exact hA c h2
  have hcore : coreMatch ((T ++ '/' :: A) ++ '.' :: E) = some (T ++ '/' :: A) :=
    coreMatch_result (T ++ '/' :: A) E (by simp) hXclean hE hEdot
  have hshape : (T ++ '/' :: A) ++ '.' :: E = T ++ '/' :: (A ++ '.' :: E) := by
    simp
  rw [hshape] at hcore
  cases T with
  | nil => exact absurd rfl hT
  | cons t0 T' =>
    have ht0 : t0 ≠ 'v' := by
      intro he
      have h2 := hTc t0 (List.mem_cons_self _ _)
      rw [he] at h2
      exact absurd h2 (by decide)
    have h0 : matchAfterUpload (t0 :: (T' ++ '/' :: (A ++ '.' :: E))) =
        (if t0 = 'v' then
          (match List.takeWhile Char.isDigit (T' ++ '/' :: (A ++ '.' :: E)),
                 List.dropWhile Char.isDigit (T' ++ '/' :: (A ++ '.' :: E)) with
           | _ :: _, '/' :: r2 =>
             (match coreMatch r2 with
              | some a => some a
              | none => coreMatch (t0 :: (T' ++ '/' :: (A ++ '.' :: E))))
           | _, _ => coreMatch (t0 :: (T' ++ '/' :: (A ++ '.' :: E))))
         else coreMatch (t0 :: (T' ++ '/' :: (A ++ '.' :: E)))) := rfl
    have hshape2 : (t0 :: T') ++ '/' :: (A ++ '.' :: E) =
        t0 :: (T' ++ '/' :: (A ++ '.' :: E)) := rfl
    rw [hshape2]
    rw [h0, if_neg ht0]
    rw [hshape2] at hcore
    exact hcore

theorem scan_cons_hit (c : Char) (cs r a : List Char)
    (h8 : (c :: cs).take 8 = uploadLit) (hd : (c :: cs).drop 8 = r)
    (hm : matchAfterUpload r = some a) : scan (c :: cs) = some a := by
  have h0 : scan (c :: cs) =
      (if (c :: cs).take 8 = uploadLit then
        (match matchAfterUpload ((c :: cs).drop 8) with
         | some a => some a
         | none => scan cs)
       else scan cs) := rfl
  rw [h0, if_pos h8, hd, hm]

theorem scan_append_lit (r a : List Char) (hm : matchAfterUpload r = some a) :
    ∀ g : List Char, 8 ≤ g.length →
      g.drop (g.length - 8) = uploadLit →
      (∀ i, i < g.length - 8 → ¬((g.drop i).take 8 = uploadLit)) →
      scan (g ++ r) = some a := by
  intro g
  induction g with
  | nil => intro h8; simp at h8
  | cons c g' ih =>
    intro h8 hend hno
    by_cases hlen : (c :: g').length = 8
    · have hz : (c :: g').length - 8 = 0 := by omega
      rw [hz] at hend
      simp only [List.drop_zero] at hend
      rw [hend]
      have h1 : (uploadLit ++ r).take 8 = uploadLit := by
        rw [List.take_append_of_le_length (by decide)]
        rfl
      have h2 : (uploadLit ++ r).drop 8 = r := List.drop_left' (by decide)
      have h3 : uploadLit ++ r = '/' :: (['u', 'p', 'l', 'o', 'a', 'd', '/'] ++ r) := rfl
      rw [h3]
      exact scan_cons_hit _ _ r a h1 h2 hm
    · have hlc : (c :: g').length = g'.length + 1 := List.length_cons c g'
      have h8g : 8 ≤ g'.length := by omega
      have hcond : ¬((c :: (g' ++ r)).take 8 = uploadLit) := by
        have heq : ((c :: g') ++ r).take 8 = (c :: g').take 8 :=
          List.take_append_of_le_length h8
        have h0 := hno 0 (by omega)
        simp only [List.drop_zero] at h0
        intro hcontra
        exact h0 (heq ▸ hcontra)
      have hstep : scan ((c :: g') ++ r) = scan (g' ++ r) := by
        have h3 : (c :: g') ++ r = c :: (g' ++ r) := rfl
        have h4 : scan (c :: (g' ++ r)) =
            (if (c :: (g' ++ r)).take 8 = uploadLit then
              (match matchAfterUpload ((c :: (g' ++ r)).drop 8) with
               | some a => some a
               | none => scan (g' ++ r))
             else scan (g' ++ r)) := rfl
        rw [h3, h4, if_neg hcond]
      rw [hstep]
      refine ih h8g ?_ ?_
      · have hk : (c :: g').length - 8 = (g'.length - 8) + 1 := by omega
        rw [hk, List.drop_succ_cons] at hend
        exact hend
      · intro i hi
        have h0 := hno (i + 1) (by omega)
        rw [List.drop_succ_cons] at h0
        exact h0

@[simp] theorem slashData : ("/" : String).data = ['/'] := rfl

@[simp] theorem dotData : ("." : String).data = ['.'] := rfl

theorem mem_if_nil {α : Type} {p : Prop} [Decidable p] {l : List α} {d : α}
    (h : d ∈ if p then l else []) : d ∈ l := by
  by_cases hp : p
  · rwa [if_pos hp] at h
  · rw [if_neg hp] at h
    simp at h

theorem wDirChars (n : Nat) : ∀ c ∈ ("w_" ++ Nat.repr n).data, c ∈ dirValueChars := by
  intro c hc
  rw [wTagData] at hc
  rcases List.mem_cons.mp hc with rfl | hc2
  · decide
  rcases List.mem_cons.mp hc2 with rfl | hc3
  · decide
  · exact repr_mem_dirValueChars n c hc3

theorem hDirChars (n : Nat) : ∀ c ∈ ("h_" ++ Nat.repr n).data, c ∈ dirValueChars := by
  intro c hc
  rw [hTagData] at hc
  rcases List.mem_cons.mp hc with rfl | hc2
  · decide
  rcases List.mem_cons.mp hc2 with rfl | hc3
  · decide
  · exact repr_mem_dirValueChars n c hc3

theorem cDirChars (cm : Crop) : ∀ c ∈ ("c_" ++ cropStr cm).data, c ∈ dirValueChars := by
  intro c hc
  rw [cTagData] at hc
  rcases List.mem_cons.mp hc with rfl | hc2
  · decide
  rcases List.mem_cons.mp hc2 with rfl | hc3
  · decide
  · exact cropStr_mem cm c hc3

theorem qDirChars (q : Quality) : ∀ c ∈ ("q_" ++ qualityStr q).data, c ∈ dirValueChars := by
  intro c hc
  rw [qTagData] at hc
  rcases List.mem_cons.mp hc with rfl | hc2
  · decide
  rcases List.mem_cons.mp hc2 with rfl | hc3
  · decide
  · exact qualityStr_mem q c hc3

theorem fDirChars (f : Format) : ∀ c ∈ ("f_" ++ formatStr f).data, c ∈ dirValueChars := by
  intro c hc
  rw [fTagData] at hc
  rcases List.mem_cons.mp hc with rfl | hc2
  · decide
  rcases List.mem_cons.mp hc2 with rfl | hc3
  · decide
  · exact formatStr_mem f c hc3

theorem transformList_mem_chars (o : ImageOptions) :
    ∀ d ∈ transformList o, ∀ c ∈ d.data, c ∈ dirValueChars := by
  intro d hd
  simp only [transformList] at hd
  rcases List.mem_append.mp hd with h1 | h1
  · rcases List.mem_append.mp h1 with h2 | h2
    · rcases List.mem_append.mp h2 with h3 | h3
      · have h4 := mem_if_nil h3
        rw [List.mem_singleton] at h4
        subst h4
        apply jsJoin_comma_mem
        intro x hx
        rcases List.mem_append.mp hx with h5 | h5
        · have h6 := mem_if_nil h5
          rw [List.mem_singleton] at h6
          subst h6
          exact wDirChars _
        · have h6 := mem_if_nil h5
          rw [List.mem_singleton] at h6
          subst h6
          exact hDirChars _
      · have h4 := mem_if_nil h3
        rw [List.mem_singleton] at h4
        subst h4
        exact cDirChars _
    · have h4 := mem_if_nil h2
      rw [List.mem_singleton] at h4
      subst h4
      exact qDirChars _
  · have h4 := mem_if_nil h1
    rw [List.mem_singleton] at h4
    subst h4
    exact fDirChars _

theorem jsJoin_transformList_ne_nil (o : ImageOptions) :
    (jsJoin "," (transformList o)).data ≠ [] := by
  rw [transformList_cases]
  by_cases hw : truthyNat o.width = true <;> by_cases hh : truthyNat o.height = true <;>
    by_cases hq : truthyQuality (o.quality.getD .auto) = true <;>
    simp only [hw, hh, hq, if_true, if_false, Bool.false_eq_true, List.nil_append,
      List.append_nil, List.cons_append, List.singleton_append] <;>
    simp [jsJoin]

/-- C1 (counterexample): the greedy capture `(.+)` starts right after the
`/upload/` of the fixed prefix, so for assetId `abc` with canonical
extension `jpg` and default options the extractor returns
`q_auto,f_auto/abc` — the transformation segment is glued onto the
assetId — and not `abc`. -/
theorem c1_counterexample :
    extractPublicIdFromUrl (getOptimizedImageUrl ("abc" ++ "." ++ "jpg") {}) =
      "q_auto,f_auto/abc" ∧
    ("q_auto,f_auto/abc" : String) ≠ "abc" := by
  exact ⟨by decide, by decide⟩

/-- C1 (amended): for every dot-free, line-terminator-free, nonempty
assetId, every canonical (nonempty, dot-free) extension and every options
value, the extractor applied to the built URL returns the transformation
segment (the comma-joined directives followed by `/`) concatenated with
the assetId — not the bare assetId. -/
theorem c1_roundtrip_amended (assetId ext : String) (o : ImageOptions)
    (h1 : assetId ≠ "") (h2 : '.' ∉ assetId.data)
    (h3 : ∀ c ∈ assetId.data, isLineTerm c = false)
    (h4 : ext ≠ "") (h5 : '.' ∉ ext.data) :
    extractPublicIdFromUrl (getOptimizedImageUrl (assetId ++ "." ++ ext) o) =
      transformationString o ++ assetId := by
  have hurl := getOptimizedImageUrl_eq (assetId ++ "." ++ ext) o
  have hm := matchAfterUpload_result (jsJoin "," (transformList o)).data assetId.data ext.data
      (jsJoin_transformList_ne_nil o)
      (jsJoin_comma_mem _ (transformList_mem_chars o))
      h3 (string_data_ne_nil ext h4) h5
  have happ := scan_append_lit _ _ hm
      ("https://res.cloudinary.com/your-cloud-name/image/upload/").data
      (by decide) (by decide) (by decide)
  have hshape : (getOptimizedImageUrl (assetId ++ "." ++ ext) o).data =
      ("https://res.cloudinary.com/your-cloud-name/image/upload/").data ++
        ((jsJoin "," (transformList o)).data ++
          '/' :: (assetId.data ++ '.' :: ext.data)) := by
    rw [hurl]
    simp [List.append_assoc]
  unfold extractPublicIdFromUrl
  rw [hshape, happ]
  rw [transformationString_eq, List.asString_eq]
  show (jsJoin "," (transformList o)).data ++ '/' :: assetId.data =
    ((jsJoin "," (transformList o) ++ "/") ++ assetId).data
  simp

/-- C1 (witness): assetId `pic`, extension `png`, default options — the
extractor returns `q_auto,f_auto/pic`. -/
theorem c1_witness :
    (("pic" : String) ≠ "" ∧ '.' ∉ ("pic" : String).data ∧
      (∀ c ∈ ("pic" : String).data, isLineTerm c = false) ∧
      ("png" : String) ≠ "" ∧ '.' ∉ ("png" : String).data) ∧
    extractPublicIdFromUrl (getOptimizedImageUrl ("pic" ++ "." ++ "png") {}) =
      transformationString {} ++ "pic" :=
  ⟨⟨by decide, by decide, by decide, by decide, by decide⟩,
   c1_roundtrip_amended ("pic") ("png") {} (by decide) (by decide) (by decide)
     (by decide) (by decide)⟩
